import Mathlib

/-
  Verification of the CUDA triangle-counting kernels of `readCSV.h` /
  `cuFindTriangles.cu` (CSR format implementation).

  The kernels are embedded shallowly:
  * machine integers become `ℕ` (all quantities involved — CSR offsets,
    column indices, counts — are non-negative in every execution the
    claims range over);
  * each `for` loop becomes a structurally recursive function driven by
    an explicit fuel argument equal to a bound on the remaining iteration
    count, with the *loop condition kept inside the body*, so the
    functions both compute by `decide` and satisfy the loop's natural
    unfolding equations;
  * the block-shared array `sum` (declared with `numberOfWarps = 8`
    cells) is modelled as flat memory `ℕ → ℕ`: cells below
    `min blockDim warpSize` are zeroed by line 124, the remaining cells
    keep an arbitrary "garbage" content `g0` (uninitialized shared
    memory).  Out-of-range cell indices are analysed separately
    (`sumInitIndices` below);
  * the parallel execution is sequentialized: all updates performed on
    the shared cells and on the global accumulator are atomic additions
    of non-negative values, so any interleaving yields the sum modelled
    here; the warp-aggregated atomic (`warpReduceSum`) contributes, per
    coalesced group, the number of threads of the group (its lock-step
    aggregation is analysed by the `group*`/`schedule*` definitions).
-/

namespace PD4

/-- CSR sparse matrix struct (readCSV.h lines 15-20).  `csrVal` is never
read by the modelled kernels and `nnz` is not read by `cuFindTriangles`;
both are kept for structural fidelity. -/
structure csrFormat where
  nnz : ℕ
  csrVal : List Int
  csrRowPtr : List ℕ
  csrColInd : List ℕ

/-- `A.csrRowPtr[i]` (reads of the row-pointer array). -/
def rp (A : csrFormat) (i : ℕ) : ℕ := A.csrRowPtr.getD i 0

/-- `A.csrColInd[j]` (reads of the column-index array). -/
def civ (A : csrFormat) (j : ℕ) : ℕ := A.csrColInd.getD j 0

/-- `#define warpSize 32` (line 66). -/
def warpSize : ℕ := 32

/-- `#define numberOfWarps 8` (line 67). -/
def numberOfWarps : ℕ := 8

/-- `cuZeroVariable` (lines 69-74): `(*nT) = 0`. -/
def cuZeroVariable (nT : ℕ) : ℕ := 0

/-- Inner `l`-loop of `cuFindTriangles` (lines 149-164): scan the row
slice from position `l` (exclusive end `eRow`) against the value
`v = csc_row`.  Returns the number of match events
(`csc_row == csr_col`, each triggering `warpReduceSum`) together with
`some l'` when the loop exited through the `csr_col > csc_row` break
(the new `beginPtr_csr_row`), `none` when it ran to `eRow`.
Fuel is exactly the remaining iteration bound `eRow - l`. -/
def scanGo (A : csrFormat) (eRow v : ℕ) : ℕ → ℕ → ℕ × Option ℕ
  | _, 0 => (0, none)
  | l, fuel+1 =>
    if l < eRow then
      if v = civ A l then
        let r := scanGo A eRow v (l+1) fuel
        (r.1 + 1, r.2)
      else if civ A l > v then (0, some l)
      else scanGo A eRow v (l+1) fuel
    else (0, none)

/-- The inner `l`-loop with its canonical fuel. -/
def scanRowFrom (A : csrFormat) (eRow v l : ℕ) : ℕ × Option ℕ :=
  scanGo A eRow v l (eRow - l)

/-- Middle `k`-loop of `cuFindTriangles` (lines 144-165): walk the column
slice `[k, eCol)`, carrying the memoized `beginPtr_csr_row` value `b`;
`b` is replaced by the break position whenever the inner scan exits
through the break and kept otherwise. -/
def colGo (A : csrFormat) (eCol eRow : ℕ) : ℕ → ℕ → ℕ → ℕ
  | _, _, 0 => 0
  | b, k, fuel+1 =>
    if k < eCol then
      let r := scanRowFrom A eRow (civ A k) b
      r.1 + colGo A eCol eRow (r.2.getD b) (k+1) fuel
    else 0

/-- The middle `k`-loop with its canonical fuel. -/
def colLoop (A : csrFormat) (eCol eRow b k : ℕ) : ℕ := colGo A eCol eRow b k (eCol - k)

/-- Match events produced while processing one entry `col` of `row`'s
slice with `col > row` (lines 140-165): `beginPtr_csr_row` starts at
`rowPtr[row]`, `k` starts at `rowPtr[col]`. -/
def edgeCount (A : csrFormat) (row col : ℕ) : ℕ :=
  colLoop A (rp A (col+1)) (rp A (row+1)) (rp A row) (rp A col)

/-- Modelled from the spec: the naive comparator of §4.3/§9 — an
intersection that "rescans `row`'s full slice from `rowPtr[row]` for
every entry of `col`'s list", i.e. the same inner scan but with the
`r`-side start position reset to `rowPtr[row]` for every `k`.  This is
the reference point of the refinement claim about the memoized
two-pointer walk; it is not code of the repository. -/
def naiveColGo (A : csrFormat) (eCol eRow s : ℕ) : ℕ → ℕ → ℕ
  | _, 0 => 0
  | k, fuel+1 =>
    if k < eCol then
      (scanRowFrom A eRow (civ A k) s).1 + naiveColGo A eCol eRow s (k+1) fuel
    else 0

/-- The naive comparator's `k`-loop with its canonical fuel. -/
def naiveColLoop (A : csrFormat) (eCol eRow s k : ℕ) : ℕ := naiveColGo A eCol eRow s k (eCol - k)

/-- Modelled from the spec: naive per-edge intersection count. -/
def naiveEdgeCount (A : csrFormat) (row col : ℕ) : ℕ :=
  naiveColLoop A (rp A (col+1)) (rp A (row+1)) (rp A row) (rp A col)

/-- `j`-loop of one thread over one row (lines 132-167): positions
`j, j+warpSize, …` below `rowPtr[row+1]`; an entry with `col > row`
contributes `edgeCount`. -/
def laneGo (A : csrFormat) (row : ℕ) : ℕ → ℕ → ℕ
  | _, 0 => 0
  | j, fuel+1 =>
    if j < rp A (row+1) then
      (if row < civ A j then edgeCount A row (civ A j) else 0) + laneGo A row (j + warpSize) fuel
    else 0

/-- One thread's `j`-loop with its canonical fuel. -/
def laneJLoop (A : csrFormat) (row j : ℕ) : ℕ := laneGo A row j (rp A (row+1) - j)

/-- Grid-stride row loop of one thread (lines 129-168): rows
`row, row+stride, …` below `N`, where the thread scans each row's slice
starting at `rowPtr[row] + lane`. -/
def threadGo (A : csrFormat) (N stride lane : ℕ) : ℕ → ℕ → ℕ
  | _, 0 => 0
  | row, fuel+1 =>
    if row < N then
      laneJLoop A row (rp A row + lane) + threadGo A N stride lane (row + stride) fuel
    else 0

/-- One thread's full row loop (match events of that thread over the
whole kernel execution) with its canonical fuel. -/
def threadRowLoop (A : csrFormat) (N stride lane row : ℕ) : ℕ :=
  threadGo A N stride lane row (N - row)

/-- Number of threads of warp `wid` in a block of size `blockDim`
(lane indices `threadIdx.x % warpSize` present in that warp). -/
def laneCount (blockDim wid : ℕ) : ℕ := min warpSize (blockDim - warpSize * wid)

/-- Aggregate added to shared cell `wid` of block `b` over the whole row
loop: the warp-aggregated atomics of `warpReduceSum` (lines 94-108) add,
per coalesced group, the size of the group, hence in aggregate one unit
per match event of each thread of the warp.  `index = wid +
blockIdx.x*numberOfWarps`, `stride = numberOfWarps*gridDim.x`
(lines 121-122). -/
def warpTotal (gridDim blockDim : ℕ) (A : csrFormat) (N b wid : ℕ) : ℕ :=
  ∑ lane ∈ Finset.range (laneCount blockDim wid),
    threadRowLoop A N (numberOfWarps * gridDim) lane (wid + b * numberOfWarps)

/-- Shared cell `c` of block `b` after the row loops and the barrier
(line 170): zero-initialized by line 124 (`if (wid==0) sum[lane] = 0;`,
i.e. cells below `min blockDim warpSize`), garbage `g0 c` otherwise,
plus the warp aggregates. -/
def sharedAfter (gridDim blockDim : ℕ) (g0 : ℕ → ℕ) (A : csrFormat) (N b c : ℕ) : ℕ :=
  (if c < min blockDim warpSize then 0 else g0 c) + warpTotal gridDim blockDim A N b c

/-- One round of `blockReduceSum`'s halving loop (line 88):
`if (lane < i) temp[lane] += temp[lane + i];`. -/
def treeStep (s : ℕ → ℕ) (i c : ℕ) : ℕ := if c < i then s c + s (c + i) else s c

/-- The halving loop of `blockReduceSum` (lines 86-90), fuel-driven:
`for (int i = g.size()/2; i > 0; i /= 2)`. -/
def treeGo : (ℕ → ℕ) → ℕ → ℕ → (ℕ → ℕ)
  | s, _, 0 => s
  | s, i, fuel+1 => if 0 < i then treeGo (treeStep s i) (i / 2) fuel else s

/-- The halving loop started at `i` with its canonical fuel. -/
def blockReduceAux (s : ℕ → ℕ) (i : ℕ) : ℕ → ℕ := treeGo s i i

/-- `blockReduceSum` (lines 77-91) as invoked at line 173 by the
coalesced group of the `wid == 0` threads, whose size is
`min blockDim warpSize`. -/
def blockReduceSum (blockDim : ℕ) (s : ℕ → ℕ) : ℕ → ℕ :=
  blockReduceAux s (min blockDim warpSize / 2)

/-- What block `b` atomically adds to `nT` at line 178: cell `0` after
the tree reduction, added by the thread with `threadIdx.x == 0` (which
exists iff `blockDim ≥ 1`). -/
def blockContribution (gridDim blockDim : ℕ) (g0 : ℕ → ℕ → ℕ) (A : csrFormat) (N b : ℕ) : ℕ :=
  if 0 < blockDim then
    blockReduceSum blockDim (sharedAfter gridDim blockDim (g0 b) A N b) 0
  else 0

/-- `cuFindTriangles` (lines 111-179): final value of the accumulator
`nT`, starting from `nT`, after all `gridDim` blocks added their
contributions.  `g0 b` is the garbage content of block `b`'s
uninitialized shared cells. -/
def cuFindTriangles (gridDim blockDim : ℕ) (g0 : ℕ → ℕ → ℕ) (A : csrFormat) (N nT : ℕ) : ℕ :=
  nT + ∑ b ∈ Finset.range gridDim, blockContribution gridDim blockDim g0 A N b

/-- Match events of a full (32-lane) warp on one row. -/
def rowTotal (A : csrFormat) (row : ℕ) : ℕ :=
  ∑ lane ∈ Finset.range warpSize, laneJLoop A row (rp A row + lane)

/-- Contribution of slice position `j` of `row` (body of the `j`-loop). -/
def rowContrib (A : csrFormat) (row j : ℕ) : ℕ :=
  if row < civ A j then edgeCount A row (civ A j) else 0

/-- Match events of the whole launch when every row is processed exactly
once by a full warp. -/
def totalWork (A : csrFormat) (N : ℕ) : ℕ := ∑ row ∈ Finset.range N, rowTotal A row

/-- Column indices stored in `row`'s slice. -/
def nbrFinset (A : csrFormat) (r : ℕ) : Finset ℕ :=
  (Finset.Ico (rp A r) (rp A (r+1))).image (civ A)

/-- Adjacency of the graph the matrix represents: entry `(r,c)` present. -/
def adj (A : csrFormat) (r c : ℕ) : Prop := c ∈ nbrFinset A r

instance (A : csrFormat) (r c : ℕ) : Decidable (adj A r c) := by
  unfold adj; infer_instance

/-- Triangles of the undirected graph on vertices `0..N-1`: ordered
triples `a < b < c`, pairwise adjacent. -/
def triangles (A : csrFormat) (N : ℕ) : Finset (ℕ × ℕ × ℕ) :=
  (Finset.range N ×ˢ Finset.range N ×ˢ Finset.range N).filter
    (fun t => t.1 < t.2.1 ∧ t.2.1 < t.2.2 ∧
      adj A t.1 t.2.1 ∧ adj A t.1 t.2.2 ∧ adj A t.2.1 t.2.2)

/-- Number of triangles (3-cycles). -/
def triangleCount (A : csrFormat) (N : ℕ) : ℕ := (triangles A N).card

/-- Processed-edge/common-neighbour triples `(r, c, w)`: `r < c`
adjacent, `w` a common neighbour of `r` and `c`. -/
def tripleSet (A : csrFormat) (N : ℕ) : Finset (ℕ × ℕ × ℕ) :=
  (Finset.range N ×ˢ Finset.range N ×ˢ Finset.range N).filter
    (fun t => t.1 < t.2.1 ∧ adj A t.1 t.2.1 ∧ adj A t.1 t.2.2 ∧ adj A t.2.1 t.2.2)

/-- Triples of `tripleSet` whose common neighbour is below the edge. -/
def tripleLow (A : csrFormat) (N : ℕ) : Finset (ℕ × ℕ × ℕ) :=
  (tripleSet A N).filter (fun t => t.2.2 < t.1)

/-- Triples of `tripleSet` whose common neighbour lies inside the edge. -/
def tripleMid (A : csrFormat) (N : ℕ) : Finset (ℕ × ℕ × ℕ) :=
  (tripleSet A N).filter (fun t => t.1 < t.2.2 ∧ t.2.2 < t.2.1)

/-- Triples of `tripleSet` whose common neighbour is above the edge. -/
def tripleHigh (A : csrFormat) (N : ℕ) : Finset (ℕ × ℕ × ℕ) :=
  (tripleSet A N).filter (fun t => t.2.1 < t.2.2)

/-- `row`'s slice is sorted strictly ascending. -/
def rowSortedStrict (A : csrFormat) (r : ℕ) : Prop :=
  ∀ q < rp A (r+1), ∀ p < q, rp A r ≤ p → civ A p < civ A q

/-- `row`'s slice is sorted ascending (duplicates allowed). -/
def rowSorted (A : csrFormat) (r : ℕ) : Prop :=
  ∀ q < rp A (r+1), ∀ p < q, rp A r ≤ p → civ A p ≤ civ A q

/-- All column indices of the first `N` rows lie in `[0, N)`. -/
def csrInRange (A : csrFormat) (N : ℕ) : Prop :=
  ∀ r < N, ∀ j < rp A (r+1), rp A r ≤ j → civ A j < N

/-- The matrix is symmetric on `[0,N) × [0,N)`. -/
def csrSymmetric (A : csrFormat) (N : ℕ) : Prop :=
  ∀ r < N, ∀ c < N, adj A r c → adj A c r

/-- No diagonal entries (no self-loops). -/
def csrNoDiag (A : csrFormat) (N : ℕ) : Prop := ∀ r < N, ¬ adj A r r

instance (A : csrFormat) (r : ℕ) : Decidable (rowSortedStrict A r) := by
  unfold rowSortedStrict; infer_instance

instance (A : csrFormat) (r : ℕ) : Decidable (rowSorted A r) := by
  unfold rowSorted; infer_instance

instance (A : csrFormat) (N : ℕ) : Decidable (csrInRange A N) := by
  unfold csrInRange; infer_instance

instance (A : csrFormat) (N : ℕ) : Decidable (csrSymmetric A N) := by
  unfold csrSymmetric; infer_instance

instance (A : csrFormat) (N : ℕ) : Decidable (csrNoDiag A N) := by
  unfold csrNoDiag; infer_instance

/-- Index pairs `(k, l)` of the two slices holding equal column values
(multiset-intersection count). -/
def pairCount (A : csrFormat) (row col : ℕ) : ℕ :=
  ((Finset.Ico (rp A col) (rp A (col+1)) ×ˢ Finset.Ico (rp A row) (rp A (row+1))).filter
    (fun kl => civ A kl.2 = civ A kl.1)).card

/-- The 3-node fully connected graph (edges 0-1, 1-2, 0-2, each stored
symmetrically, `nnz = 6`), per-row slices sorted. -/
def Atri : csrFormat :=
  { nnz := 6, csrVal := [1, 1, 1, 1, 1, 1],
    csrRowPtr := [0, 2, 4, 6], csrColInd := [1, 2, 0, 2, 0, 1] }

/-- Two rows, both sorted ascending; row 1's slice `[1, 1]` holds a
duplicate column index. -/
def Adup : csrFormat :=
  { nnz := 4, csrVal := [1, 1, 1, 1], csrRowPtr := [0, 2, 4], csrColInd := [1, 2, 1, 1] }

/-- A 4-row graph with `nnz = 0`: `rowPtr` all zeros, empty `colInd`. -/
def Aempty : csrFormat :=
  { nnz := 0, csrVal := [], csrRowPtr := List.replicate 5 0, csrColInd := [] }

/-- Shared-array indices written by line 124
(`if (wid==0) sum[lane] = 0;`): the lane index `threadIdx.x % warpSize`
of every thread with `threadIdx.x / warpSize == 0`. -/
def sumInitIndices (blockDim : ℕ) : Finset ℕ :=
  ((Finset.range blockDim).filter (fun t => t / warpSize = 0)).image (fun t => t % warpSize)

/-- `warpReduceSum` (lines 94-108), per thread of one coalesced group:
`val = g.size()`; only the thread with `g.thread_rank() == 0` issues
`atomicAdd(&sum[wid], val)`. -/
def warpReduceThreadAdd (gsize rank : ℕ) : ℕ := if rank = 0 then gsize else 0

/-- `g.thread_rank()` of lane `t` in the coalesced group `g`: its
position in lane order. -/
def groupRank (g : Finset ℕ) (t : ℕ) : ℕ := (g.filter (fun u => u < t)).card

/-- Aggregate the group's threads add to `sum[wid]` in one
`warpReduceSum` call. -/
def groupAdded (g : Finset ℕ) : ℕ := ∑ t ∈ g, warpReduceThreadAdd g.card (groupRank g t)

/-- Number of atomic operations the group issues in one call. -/
def groupAtomics (g : Finset ℕ) : ℕ := (g.filter (fun t => groupRank g t = 0)).card

/-- A warp execution schedule: the sequence of coalesced groups of
lanes that simultaneously reach the matched branch (lock-step execution
makes each such group well defined). -/
def scheduleAdded (sched : List (Finset ℕ)) : ℕ := (sched.map groupAdded).sum

/-- Total match events of a schedule: one per thread per group. -/
def scheduleEvents (sched : List (Finset ℕ)) : ℕ := (sched.map Finset.card).sum

/-- Total atomics issued over a schedule. -/
def scheduleAtomics (sched : List (Finset ℕ)) : ℕ := (sched.map groupAtomics).sum

/-! ### Loop unfolding equations

Each fuel-driven loop satisfies the natural unfolding equation of the
`for` loop it embeds; the fuel arguments never appear again below. -/

theorem scanRowFrom_eq (A : csrFormat) (eRow v l : ℕ) :
    scanRowFrom A eRow v l =
      if l < eRow then
        if v = civ A l then
          ((scanRowFrom A eRow v (l+1)).1 + 1, (scanRowFrom A eRow v (l+1)).2)
        else if civ A l > v then (0, some l)
        else scanRowFrom A eRow v (l+1)
      else (0, none) := by
  unfold scanRowFrom
  rcases Nat.lt_or_ge l eRow with h | h
  · rw [show eRow - l = (eRow - (l+1)) + 1 from by omega]
    simp only [scanGo, if_pos h]
  · rw [show eRow - l = 0 from by omega, if_neg (by omega : ¬ l < eRow)]
    rfl

theorem colLoop_eq (A : csrFormat) (eCol eRow b k : ℕ) :
    colLoop A eCol eRow b k =
      if k < eCol then
        (scanRowFrom A eRow (civ A k) b).1 +
          colLoop A eCol eRow ((scanRowFrom A eRow (civ A k) b).2.getD b) (k+1)
      else 0 := by
  unfold colLoop
  rcases Nat.lt_or_ge k eCol with h | h
  · rw [show eCol - k = (eCol - (k+1)) + 1 from by omega]
    simp only [colGo, if_pos h]
  · rw [show eCol - k = 0 from by omega, if_neg (by omega : ¬ k < eCol)]
    rfl

theorem naiveColLoop_eq (A : csrFormat) (eCol eRow s k : ℕ) :
    naiveColLoop A eCol eRow s k =
      if k < eCol then
        (scanRowFrom A eRow (civ A k) s).1 + naiveColLoop A eCol eRow s (k+1)
      else 0 := by
  unfold naiveColLoop
  rcases Nat.lt_or_ge k eCol with h | h
  · rw [show eCol - k = (eCol - (k+1)) + 1 from by omega]
    simp only [naiveColGo, if_pos h]
  · rw [show eCol - k = 0 from by omega, if_neg (by omega : ¬ k < eCol)]
    rfl

theorem laneGo_fuel (A : csrFormat) (row : ℕ) :
    ∀ f1 f2 j, rp A (row+1) - j ≤ f1 → rp A (row+1) - j ≤ f2 →
      laneGo A row j f1 = laneGo A row j f2 := by
  have hw : warpSize = 32 := rfl
  intro f1
  induction f1 with
  | zero =>
    intro f2 j h1 h2
    cases f2 with
    | zero => rfl
    | succ f2' =>
      simp only [laneGo]
      rw [if_neg (by omega : ¬ j < rp A (row+1))]
  | succ f1' ih =>
    intro f2 j h1 h2
    cases f2 with
    | zero =>
      simp only [laneGo]
      rw [if_neg (by omega : ¬ j < rp A (row+1))]
    | succ f2' =>
      simp only [laneGo]
      by_cases hj : j < rp A (row+1)
      · rw [if_pos hj, if_pos hj, ih f2' (j + warpSize) (by omega) (by omega)]
      · rw [if_neg hj, if_neg hj]

theorem laneJLoop_eq (A : csrFormat) (row j : ℕ) :
    laneJLoop A row j =
      if j < rp A (row+1) then
        rowContrib A row j + laneJLoop A row (j + warpSize)
      else 0 := by
  have hw : warpSize = 32 := rfl
  unfold laneJLoop
  rcases Nat.lt_or_ge j (rp A (row+1)) with h | h
  · rw [show rp A (row+1) - j = (rp A (row+1) - j - 1) + 1 from by omega]
    simp only [laneGo, if_pos h]
    rw [laneGo_fuel A row (rp A (row+1) - j - 1) (rp A (row+1) - (j + warpSize))
      (j + warpSize) (by omega) (by omega)]
    rfl
  · rw [show rp A (row+1) - j = 0 from by omega, if_neg (by omega : ¬ j < rp A (row+1))]
    rfl

theorem threadGo_fuel (A : csrFormat) (N stride lane : ℕ) (hs : 0 < stride) :
    ∀ f1 f2 row, N - row ≤ f1 → N - row ≤ f2 →
      threadGo A N stride lane row f1 = threadGo A N stride lane row f2 := by
  intro f1
  induction f1 with
  | zero =>
    intro f2 row h1 h2
    cases f2 with
    | zero => rfl
    | succ f2' =>
      simp only [threadGo]
      rw [if_neg (by omega : ¬ row < N)]
  | succ f1' ih =>
    intro f2 row h1 h2
    cases f2 with
    | zero =>
      simp only [threadGo]
      rw [if_neg (by omega : ¬ row < N)]
    | succ f2' =>
      simp only [threadGo]
      by_cases hr : row < N
      · rw [if_pos hr, if_pos hr, ih f2' (row + stride) (by omega) (by omega)]
      · rw [if_neg hr, if_neg hr]

theorem threadRowLoop_eq (A : csrFormat) (N stride lane row : ℕ) (hs : 0 < stride) :
    threadRowLoop A N stride lane row =
      if row < N then
        laneJLoop A row (rp A row + lane) + threadRowLoop A N stride lane (row + stride)
      else 0 := by
  unfold threadRowLoop
  rcases Nat.lt_or_ge row N with h | h
  · rw [show N - row = (N - row - 1) + 1 from by omega]
    simp only [threadGo, if_pos h]
    rw [threadGo_fuel A N stride lane hs (N - row - 1) (N - (row + stride))
      (row + stride) (by omega) (by omega)]
  · rw [show N - row = 0 from by omega, if_neg (by omega : ¬ row < N)]
    rfl

theorem treeGo_fuel :
    ∀ f1 f2 (s : ℕ → ℕ) (i : ℕ), i ≤ f1 → i ≤ f2 →
      treeGo s i f1 = treeGo s i f2 := by
  intro f1
  induction f1 with
  | zero =>
    intro f2 s i h1 h2
    cases f2 with
    | zero => rfl
    | succ f2' =>
      simp only [treeGo]
      rw [if_neg (by omega : ¬ 0 < i)]
  | succ f1' ih =>
    intro f2 s i h1 h2
    cases f2 with
    | zero =>
      simp only [treeGo]
      rw [if_neg (by omega : ¬ 0 < i)]
    | succ f2' =>
      simp only [treeGo]
      by_cases hi : 0 < i
      · rw [if_pos hi, if_pos hi, ih f2' (treeStep s i) (i / 2) (by omega) (by omega)]
      · rw [if_neg hi, if_neg hi]

theorem blockReduceAux_eq (s : ℕ → ℕ) (i : ℕ) :
    blockReduceAux s i = if 0 < i then blockReduceAux (treeStep s i) (i / 2) else s := by
  unfold blockReduceAux
  cases i with
  | zero => rfl
  | succ i' =>
    simp only [treeGo, if_pos (Nat.succ_pos i')]
    rw [treeGo_fuel i' ((i' + 1) / 2) (treeStep s (i' + 1)) ((i' + 1) / 2) (by omega) le_rfl]

/-! ### The inner scan on a sorted region -/

/-- On a region sorted ascending, the inner scan counts exactly the
occurrences of `v` in `[b, e)`: positions below `v` are skipped, all
occurrences are contiguous and counted, and the break at the first
position above `v` cannot hide any further occurrence. -/
theorem scan_count (A : csrFormat) (e v : ℕ) :
    ∀ n b, e - b ≤ n →
      (∀ p q, b ≤ p → p < q → q < e → civ A p ≤ civ A q) →
      (scanRowFrom A e v b).1 = ∑ p ∈ Finset.Ico b e, (if civ A p = v then 1 else 0) := by
  intro n
  induction n with
  | zero =>
    intro b hb _
    rw [scanRowFrom_eq, if_neg (by omega : ¬ b < e),
      Finset.Ico_eq_empty (by omega : ¬ b < e), Finset.sum_empty]
  | succ n ih =>
    intro b hb Hs
    by_cases hlt : b < e
    · rw [scanRowFrom_eq, if_pos hlt, Finset.sum_eq_sum_Ico_succ_bot hlt]
      by_cases hv : v = civ A b
      · rw [if_pos hv]
        have h1 := ih (b+1) (by omega)
          (fun p q hp hpq hq => Hs p q (by omega) hpq hq)
        simp only [h1, if_pos hv.symm]
        omega
      · rw [if_neg hv]
        by_cases hgt : civ A b > v
        · rw [if_pos hgt]
          have hz : ∀ p ∈ Finset.Ico (b+1) e, (if civ A p = v then 1 else 0) = 0 := by
            intro p hp
            rw [Finset.mem_Ico] at hp
            have : civ A b ≤ civ A p := Hs b p le_rfl (by omega) hp.2
            rw [if_neg (by omega)]
          rw [Finset.sum_eq_zero hz, if_neg (by omega : ¬ civ A b = v)]
          rfl
        · rw [if_neg hgt]
          have h1 := ih (b+1) (by omega)
            (fun p q hp hpq hq => Hs p q (by omega) hpq hq)
          rw [h1, if_neg (fun hc => hv hc.symm)]
          omega
    · rw [scanRowFrom_eq, if_neg hlt,
        Finset.Ico_eq_empty hlt, Finset.sum_empty]

/-- Every position strictly before the break position holds a value
`≤ v` (it was scanned and either matched or was below `v`). -/
theorem scan_break (A : csrFormat) (e v : ℕ) :
    ∀ n b, e - b ≤ n → ∀ b', (scanRowFrom A e v b).2 = some b' →
      b ≤ b' ∧ ∀ p, b ≤ p → p < b' → civ A p ≤ v := by
  intro n
  induction n with
  | zero =>
    intro b hb b' hsome
    rw [scanRowFrom_eq, if_neg (by omega : ¬ b < e)] at hsome
    exact absurd hsome (by simp)
  | succ n ih =>
    intro b hb b' hsome
    by_cases hlt : b < e
    · rw [scanRowFrom_eq, if_pos hlt] at hsome
      by_cases hv : v = civ A b
      · rw [if_pos hv] at hsome
        obtain ⟨h1, h2⟩ := ih (b+1) (by omega) b' hsome
        refine ⟨by omega, fun p hp hpb => ?_⟩
        rcases Nat.eq_or_lt_of_le hp with rfl | hp'
        · omega
        · exact h2 p (by omega) hpb
      · rw [if_neg hv] at hsome
        by_cases hgt : civ A b > v
        · rw [if_pos hgt] at hsome
          simp only [Option.some.injEq] at hsome
          subst hsome
          exact ⟨le_rfl, fun p hp hpb => by omega⟩
        · rw [if_neg hgt] at hsome
          obtain ⟨h1, h2⟩ := ih (b+1) (by omega) b' hsome
          refine ⟨by omega, fun p hp hpb => ?_⟩
          rcases Nat.eq_or_lt_of_le hp with rfl | hp'
          · omega
          · exact h2 p (by omega) hpb
    · rw [scanRowFrom_eq, if_neg hlt] at hsome
      exact absurd hsome (by simp)

/-- If the scan ran to the end of the region without breaking, every
scanned position holds a value `≤ v`. -/
theorem scan_none (A : csrFormat) (e v : ℕ) :
    ∀ n b, e - b ≤ n → (scanRowFrom A e v b).2 = none →
      ∀ p, b ≤ p → p < e → civ A p ≤ v := by
  intro n
  induction n with
  | zero =>
    intro b hb _ p hp hpe
    omega
  | succ n ih =>
    intro b hb hnone p hp hpe
    by_cases hlt : b < e
    · rw [scanRowFrom_eq, if_pos hlt] at hnone
      by_cases hv : v = civ A b
      · rw [if_pos hv] at hnone
        rcases Nat.eq_or_lt_of_le hp with rfl | hp'
        · omega
        · exact ih (b+1) (by omega) hnone p (by omega) hpe
      · rw [if_neg hv] at hnone
        by_cases hgt : civ A b > v
        · rw [if_pos hgt] at hnone
          exact absurd hnone (by simp)
        · rw [if_neg hgt] at hnone
          rcases Nat.eq_or_lt_of_le hp with rfl | hp'
          · omega
          · exact ih (b+1) (by omega) hnone p (by omega) hpe
    · omega

/-! ### The memoized `k`-loop counts equal-value index pairs -/

/-- Invariant-carrying form: if the row region `[s,e)` is sorted
ascending, the column region `[ks,ke)` strictly ascending, and every
position below the memoized pointer `b` holds a value smaller than
every remaining column value, then the memoized loop from `(b, k)`
counts every equal-value index pair `(q, p)` with `q ∈ [k,ke)`,
`p ∈ [s,e)`. -/
theorem colLoop_pairs_aux (A : csrFormat) (s e ks ke : ℕ)
    (Hrow : ∀ p q, s ≤ p → p < q → q < e → civ A p ≤ civ A q)
    (Hcol : ∀ p q, ks ≤ p → p < q → q < ke → civ A p < civ A q) :
    ∀ n k b, ke - k ≤ n → ks ≤ k → s ≤ b →
      (∀ p, s ≤ p → p < b → ∀ q, k ≤ q → q < ke → civ A p < civ A q) →
      colLoop A ke e b k =
        ∑ q ∈ Finset.Ico k ke, ∑ p ∈ Finset.Ico s e, (if civ A p = civ A q then 1 else 0) := by
  intro n
  induction n with
  | zero =>
    intro k b hn _ _ _
    rw [colLoop_eq, if_neg (by omega : ¬ k < ke),
      Finset.Ico_eq_empty (by omega : ¬ k < ke), Finset.sum_empty]
  | succ n ih =>
    intro k b hn hks hsb INV
    by_cases hlt : k < ke
    · rw [colLoop_eq, if_pos hlt, Finset.sum_eq_sum_Ico_succ_bot hlt]
      have hscan : (scanRowFrom A e (civ A k) b).1 =
          ∑ p ∈ Finset.Ico b e, (if civ A p = civ A k then 1 else 0) :=
        scan_count A e (civ A k) (e - b) b le_rfl
          (fun p q hp hpq hq => Hrow p q (by omega) hpq hq)
      have hfull : (scanRowFrom A e (civ A k) b).1 =
          ∑ p ∈ Finset.Ico s e, (if civ A p = civ A k then 1 else 0) := by
        rw [hscan]
        refine Finset.sum_subset (Finset.Ico_subset_Ico hsb le_rfl) ?_
        intro x hx hxn
        rw [Finset.mem_Ico] at hx
        have hxb : x < b := by
          rw [Finset.mem_Ico] at hxn
          omega
        rw [if_neg (by have := INV x hx.1 hxb k le_rfl hlt; omega)]
      rcases hbr : (scanRowFrom A e (civ A k) b).2 with _ | x
      · have hrec := ih (k+1) b (by omega) (by omega) hsb
          (fun p hp hpb q hq hqe => INV p hp hpb q (by omega) hqe)
        simp only [Option.getD_none]
        rw [hrec, hfull]
      · obtain ⟨hbx, hble⟩ := scan_break A e (civ A k) (e - b) b le_rfl x hbr
        have hrec := ih (k+1) x (by omega) (by omega) (by omega)
          (fun p hp hpx q hq hqe => by
            rcases Nat.lt_or_ge p b with hpb | hpb
            · exact INV p hp hpb q (by omega) hqe
            · have h1 : civ A p ≤ civ A k := hble p hpb hpx
              have h2 : civ A k < civ A q := Hcol k q hks (by omega) hqe
              omega)
        simp only [Option.getD_some]
        rw [hrec, hfull]
    · rw [colLoop_eq, if_neg hlt,
        Finset.Ico_eq_empty hlt, Finset.sum_empty]

/-- The memoized `k`-loop, started as `cuFindTriangles` starts it
(`beginPtr_csr_row = rowPtr[row]`), counts the equal-value index pairs
of the two slices. -/
theorem colLoop_pairSum (A : csrFormat) (s e ks ke : ℕ)
    (Hrow : ∀ p q, s ≤ p → p < q → q < e → civ A p ≤ civ A q)
    (Hcol : ∀ p q, ks ≤ p → p < q → q < ke → civ A p < civ A q) :
    colLoop A ke e s ks =
      ∑ q ∈ Finset.Ico ks ke, ∑ p ∈ Finset.Ico s e, (if civ A p = civ A q then 1 else 0) :=
  colLoop_pairs_aux A s e ks ke Hrow Hcol (ke - ks) ks s le_rfl le_rfl le_rfl
    (fun p _ hpb => by omega)

/-- The naive rescan-from-the-start loop counts the same pairs; only
the row region needs to be sorted. -/
theorem naiveColLoop_pairSum (A : csrFormat) (s e ke : ℕ)
    (Hrow : ∀ p q, s ≤ p → p < q → q < e → civ A p ≤ civ A q) :
    ∀ n k, ke - k ≤ n →
      naiveColLoop A ke e s k =
        ∑ q ∈ Finset.Ico k ke, ∑ p ∈ Finset.Ico s e, (if civ A p = civ A q then 1 else 0) := by
  intro n
  induction n with
  | zero =>
    intro k hn
    rw [naiveColLoop_eq, if_neg (by omega : ¬ k < ke),
      Finset.Ico_eq_empty (by omega : ¬ k < ke), Finset.sum_empty]
  | succ n ih =>
    intro k hn
    by_cases hlt : k < ke
    · rw [naiveColLoop_eq, if_pos hlt, Finset.sum_eq_sum_Ico_succ_bot hlt,
        ih (k+1) (by omega),
        scan_count A e (civ A k) (e - s) s le_rfl Hrow]
    · rw [naiveColLoop_eq, if_neg hlt,
        Finset.Ico_eq_empty hlt, Finset.sum_empty]

/-! ### Per-edge counts: pairs and intersections -/

theorem pairCount_eq_sum (A : csrFormat) (row col : ℕ) :
    pairCount A row col =
      ∑ q ∈ Finset.Ico (rp A col) (rp A (col+1)),
        ∑ p ∈ Finset.Ico (rp A row) (rp A (row+1)),
          (if civ A p = civ A q then 1 else 0) := by
  unfold pairCount
  rw [Finset.card_filter, Finset.sum_product]

/-- Sortedness hypotheses restated positionally. -/
theorem rowSorted_mono (A : csrFormat) (r : ℕ) (h : rowSorted A r) :
    ∀ p q, rp A r ≤ p → p < q → q < rp A (r+1) → civ A p ≤ civ A q :=
  fun p q hp hpq hq => h q hq p hpq hp

theorem rowSortedStrict_mono (A : csrFormat) (r : ℕ) (h : rowSortedStrict A r) :
    ∀ p q, rp A r ≤ p → p < q → q < rp A (r+1) → civ A p < civ A q :=
  fun p q hp hpq hq => h q hq p hpq hp

/-- With `row`'s slice sorted and `col`'s slice strictly sorted, the
memoized loop of the kernel records exactly the equal-value index
pairs. -/
theorem edgeCount_eq_pairCount (A : csrFormat) (row col : ℕ)
    (Hrow : rowSorted A row) (Hcol : rowSortedStrict A col) :
    edgeCount A row col = pairCount A row col := by
  unfold edgeCount
  rw [pairCount_eq_sum]
  exact colLoop_pairSum A (rp A row) (rp A (row+1)) (rp A col) (rp A (col+1))
    (rowSorted_mono A row Hrow) (rowSortedStrict_mono A col Hcol)

/-- The naive rescanning comparator also records exactly the
equal-value index pairs (no strictness needed on the `col` side). -/
theorem naiveEdgeCount_eq_pairCount (A : csrFormat) (row col : ℕ)
    (Hrow : rowSorted A row) :
    naiveEdgeCount A row col = pairCount A row col := by
  unfold naiveEdgeCount
  rw [pairCount_eq_sum]
  exact naiveColLoop_pairSum A (rp A row) (rp A (row+1)) (rp A (col+1))
    (rowSorted_mono A row Hrow) (rp A (col+1) - rp A col) (rp A col) le_rfl

/-- Strict sortedness makes `civ` injective on the slice. -/
theorem civ_injOn (A : csrFormat) (r : ℕ) (h : rowSortedStrict A r) :
    Set.InjOn (civ A) (Finset.Ico (rp A r) (rp A (r+1))) := by
  intro p hp q hq hpq
  simp only [Finset.coe_Ico, Set.mem_Ico] at hp hq
  rcases Nat.lt_trichotomy p q with hlt | heq | hgt
  · have := h q hq.2 p hlt hp.1
    omega
  · exact heq
  · have := h p hp.2 q hgt hq.1
    omega

/-- With both slices strictly sorted, the pair count is the cardinality
of the intersection of the neighbour sets. -/
theorem pairCount_eq_inter (A : csrFormat) (row col : ℕ)
    (Hrow : rowSortedStrict A row) (Hcol : rowSortedStrict A col) :
    pairCount A row col = ((nbrFinset A row) ∩ (nbrFinset A col)).card := by
  rw [pairCount_eq_sum]
  have hinner : ∀ c, (∑ p ∈ Finset.Ico (rp A row) (rp A (row+1)),
      (if civ A p = c then 1 else 0)) = (if c ∈ nbrFinset A row then 1 else 0) := by
    intro c
    by_cases hc : c ∈ nbrFinset A row
    · obtain ⟨p0, hp0, hcp⟩ := Finset.mem_image.mp hc
      rw [← Finset.card_filter, if_pos hc]
      have : (Finset.Ico (rp A row) (rp A (row+1))).filter (fun p => civ A p = c) = {p0} := by
        ext x
        simp only [Finset.mem_filter, Finset.mem_singleton]
        constructor
        · rintro ⟨hx, hxc⟩
          exact civ_injOn A row Hrow (Finset.mem_coe.mpr hx) (Finset.mem_coe.mpr hp0)
            (by rw [hxc, hcp])
        · rintro rfl
          exact ⟨hp0, hcp⟩
      rw [this, Finset.card_singleton]
    · rw [← Finset.card_filter, if_neg hc]
      have : (Finset.Ico (rp A row) (rp A (row+1))).filter (fun p => civ A p = c) = ∅ := by
        ext x
        simp only [Finset.mem_filter, Finset.not_mem_empty, iff_false, not_and]
        intro hx hxc
        exact hc (Finset.mem_image.mpr ⟨x, hx, hxc⟩)
      rw [this, Finset.card_empty]
  calc (∑ q ∈ Finset.Ico (rp A col) (rp A (col+1)),
        ∑ p ∈ Finset.Ico (rp A row) (rp A (row+1)), (if civ A p = civ A q then 1 else 0))
      = ∑ q ∈ Finset.Ico (rp A col) (rp A (col+1)),
          (if civ A q ∈ nbrFinset A row then 1 else 0) := by
        exact Finset.sum_congr rfl (fun q _ => hinner (civ A q))
    _ = ((Finset.Ico (rp A col) (rp A (col+1))).filter
          (fun q => civ A q ∈ nbrFinset A row)).card := (Finset.card_filter _ _).symm
    _ = (((Finset.Ico (rp A col) (rp A (col+1))).filter
          (fun q => civ A q ∈ nbrFinset A row)).image (civ A)).card := by
        rw [Finset.card_image_of_injOn
          (Set.InjOn.mono (fun x hx => by
            simp only [Finset.coe_filter, Set.mem_setOf_eq] at hx
            exact Finset.mem_coe.mpr hx.1) (civ_injOn A col Hcol))]
    _ = ((nbrFinset A col).filter (fun c => c ∈ nbrFinset A row)).card := by
        show _ = (((Finset.Ico (rp A col) (rp A (col+1))).image (civ A)).filter
          (fun c => c ∈ nbrFinset A row)).card
        rw [Finset.filter_image]
    _ = ((nbrFinset A row) ∩ (nbrFinset A col)).card := by
        rw [Finset.filter_mem_eq_inter, Finset.inter_comm]

/-! ### One warp covers one row's slice exactly once -/

theorem sum_range_shift (f : ℕ → ℕ) (s w : ℕ) :
    ∑ lane ∈ Finset.range w, f (s + lane) = ∑ j ∈ Finset.Ico s (s + w), f j := by
  rw [Finset.sum_Ico_eq_sum_range, Nat.add_sub_cancel_left]

/-- The 32 lanes of a warp, each walking positions
`s + lane, s + lane + 32, …`, together visit every slice position
exactly once. -/
theorem laneSum_eq_Ico (A : csrFormat) (row : ℕ) :
    ∀ n s, rp A (row+1) - s ≤ n →
      (∑ lane ∈ Finset.range warpSize, laneJLoop A row (s + lane)) =
        ∑ j ∈ Finset.Ico s (rp A (row+1)), rowContrib A row j := by
  have hw : warpSize = 32 := rfl
  intro n
  induction n with
  | zero =>
    intro s hs
    rw [Finset.sum_eq_zero (fun lane _ => by
        rw [laneJLoop_eq, if_neg (by omega : ¬ s + lane < rp A (row+1))]),
      Finset.Ico_eq_empty (by omega : ¬ s < rp A (row+1)), Finset.sum_empty]
  | succ n ih =>
    intro s hs
    by_cases hlt : s < rp A (row+1)
    · have hsplit : ∀ lane, laneJLoop A row (s + lane) =
          (if s + lane < rp A (row+1) then rowContrib A row (s + lane) else 0) +
            laneJLoop A row ((s + warpSize) + lane) := by
        intro lane
        by_cases hj : s + lane < rp A (row+1)
        · rw [laneJLoop_eq, if_pos hj, if_pos hj,
            show s + lane + warpSize = s + warpSize + lane from by omega]
        · rw [laneJLoop_eq, if_neg hj, if_neg hj,
            laneJLoop_eq, if_neg (by omega : ¬ s + warpSize + lane < rp A (row+1))]
      calc (∑ lane ∈ Finset.range warpSize, laneJLoop A row (s + lane))
          = (∑ lane ∈ Finset.range warpSize,
              (if s + lane < rp A (row+1) then rowContrib A row (s + lane) else 0)) +
            ∑ lane ∈ Finset.range warpSize, laneJLoop A row ((s + warpSize) + lane) := by
            rw [← Finset.sum_add_distrib]
            exact Finset.sum_congr rfl (fun lane _ => hsplit lane)
        _ = (∑ j ∈ Finset.Ico s (min (s + warpSize) (rp A (row+1))), rowContrib A row j) +
            ∑ j ∈ Finset.Ico (s + warpSize) (rp A (row+1)), rowContrib A row j := by
            rw [ih (s + warpSize) (by omega),
              sum_range_shift (fun j => if j < rp A (row+1) then rowContrib A row j else 0) s warpSize,
              ← Finset.sum_filter]
            congr 1
            congr 1
            ext x
            simp only [Finset.mem_filter, Finset.mem_Ico, Finset.mem_Ico, lt_min_iff]
            omega
        _ = ∑ j ∈ Finset.Ico s (rp A (row+1)), rowContrib A row j := by
            rcases le_or_lt (rp A (row+1)) (s + warpSize) with hle | hgt
            · rw [show min (s + warpSize) (rp A (row+1)) = rp A (row+1) from by omega,
                Finset.Ico_eq_empty (by omega : ¬ s + warpSize < rp A (row+1)),
                Finset.sum_empty, Nat.add_zero]
            · rw [show min (s + warpSize) (rp A (row+1)) = s + warpSize from by omega]
              exact Finset.sum_Ico_consecutive _ (by omega) (by omega)
    · rw [Finset.sum_eq_zero (fun lane _ => by
          rw [laneJLoop_eq, if_neg (by omega : ¬ s + lane < rp A (row+1))]),
        Finset.Ico_eq_empty hlt, Finset.sum_empty]

/-- A full warp's match events on one row. -/
theorem rowTotal_eq_Ico (A : csrFormat) (row : ℕ) :
    rowTotal A row = ∑ j ∈ Finset.Ico (rp A row) (rp A (row+1)), rowContrib A row j :=
  laneSum_eq_Ico A row (rp A (row+1) - rp A row) (rp A row) le_rfl

/-! ### The grid-stride loop partitions the rows -/

/-- The 32 threads of a full warp with global warp index `r0` process
exactly the rows `r0, r0 + S, r0 + 2S, …` below `N`. -/
theorem warpRows (A : csrFormat) (N S : ℕ) (hs : 0 < S) :
    ∀ n r0, N - r0 ≤ n →
      (∑ lane ∈ Finset.range warpSize, threadRowLoop A N S lane r0) =
        ∑ x ∈ (Finset.range N).filter (fun x => r0 ≤ x ∧ (x - r0) % S = 0), rowTotal A x := by
  intro n
  induction n with
  | zero =>
    intro r0 hr
    rw [Finset.sum_eq_zero (fun lane _ => by
        rw [threadRowLoop_eq A N S lane r0 hs, if_neg (by omega : ¬ r0 < N)]),
      Finset.filter_eq_empty_iff.mpr (fun x hx => by
        rw [Finset.mem_range] at hx
        omega),
      Finset.sum_empty]
  | succ n ih =>
    intro r0 hr
    by_cases hlt : r0 < N
    · have hset : (Finset.range N).filter (fun x => r0 ≤ x ∧ (x - r0) % S = 0) =
          insert r0 ((Finset.range N).filter (fun x => r0 + S ≤ x ∧ (x - (r0 + S)) % S = 0)) := by
        ext x
        simp only [Finset.mem_filter, Finset.mem_insert, Finset.mem_range]
        constructor
        · rintro ⟨hxN, hx0, hmod⟩
          rcases Nat.eq_or_lt_of_le hx0 with rfl | hgt
          · exact Or.inl rfl
          · refine Or.inr ⟨hxN, ?_, ?_⟩
            · have hdvd : S ∣ (x - r0) := Nat.dvd_of_mod_eq_zero hmod
              have := Nat.le_of_dvd (by omega) hdvd
              omega
            · have hdvd : S ∣ (x - r0) := Nat.dvd_of_mod_eq_zero hmod
              have hSle : S ≤ x - r0 := Nat.le_of_dvd (by omega) hdvd
              rw [show x - (r0 + S) = (x - r0) - S from by omega,
                ← Nat.mod_eq_sub_mod hSle]
              exact hmod
        · rintro (rfl | ⟨hxN, hx0, hmod⟩)
          · exact ⟨hlt, le_rfl, by simp⟩
          · refine ⟨hxN, by omega, ?_⟩
            rw [show x - r0 = (x - (r0 + S)) + S from by omega]
            rw [Nat.add_mod_right]
            exact hmod
      have hnotmem : r0 ∉ (Finset.range N).filter
          (fun x => r0 + S ≤ x ∧ (x - (r0 + S)) % S = 0) := by
        simp only [Finset.mem_filter, Finset.mem_range, not_and]
        intro _ h
        omega
      rw [hset, Finset.sum_insert hnotmem, ← ih (r0 + S) (by omega)]
      rw [show (∑ lane ∈ Finset.range warpSize, threadRowLoop A N S lane r0) =
          ∑ lane ∈ Finset.range warpSize,
            (laneJLoop A r0 (rp A r0 + lane) + threadRowLoop A N S lane (r0 + S)) from
        Finset.sum_congr rfl (fun lane _ => by
          rw [threadRowLoop_eq A N S lane r0 hs, if_pos hlt])]
      rw [Finset.sum_add_distrib]
      rfl
    · rw [Finset.sum_eq_zero (fun lane _ => by
          rw [threadRowLoop_eq A N S lane r0 hs, if_neg hlt]),
        Finset.filter_eq_empty_iff.mpr (fun x hx => by
          rw [Finset.mem_range] at hx
          omega),
        Finset.sum_empty]

/-- Summed over all `S` global warp indices, the grid-stride fibers
exactly partition the rows `0..N-1`. -/
theorem gridStride_partition (f : ℕ → ℕ) (N S : ℕ) (hs : 0 < S) :
    (∑ w ∈ Finset.range S,
        ∑ x ∈ (Finset.range N).filter (fun x => w ≤ x ∧ (x - w) % S = 0), f x) =
      ∑ x ∈ Finset.range N, f x := by
  have hmaps : ∀ x ∈ Finset.range N, x % S ∈ Finset.range S := by
    intro x _
    rw [Finset.mem_range]
    exact Nat.mod_lt x hs
  rw [← Finset.sum_fiberwise_of_maps_to hmaps f]
  refine Finset.sum_congr rfl (fun w hw => ?_)
  rw [Finset.mem_range] at hw
  refine Finset.sum_congr ?_ (fun _ _ => rfl)
  ext x
  simp only [Finset.mem_filter, Finset.mem_range]
  constructor
  · rintro ⟨hxN, hwx, hmod⟩
    refine ⟨hxN, ?_⟩
    obtain ⟨k, hk⟩ := Nat.dvd_of_mod_eq_zero hmod
    have hx : x = w + S * k := by omega
    rw [hx, Nat.add_mul_mod_self_left, Nat.mod_eq_of_lt hw]
  · rintro ⟨hxN, hmod⟩
    have h1 := Nat.div_add_mod x S
    refine ⟨hxN, by omega, ?_⟩
    rw [show x - w = S * (x / S) from by omega, Nat.mul_mod_right]

/-! ### The halving tree reduction over 32 cells -/

/-- Five halving rounds starting at `i = 16` (the coalesced group of the
32 `wid == 0` threads) collapse cells `0..31` into cell `0`. -/
theorem tree32 (s : ℕ → ℕ) : blockReduceAux s 16 0 = ∑ l ∈ Finset.range 32, s l := by
  rw [blockReduceAux_eq]
  norm_num
  rw [blockReduceAux_eq]
  norm_num
  rw [blockReduceAux_eq]
  norm_num
  rw [blockReduceAux_eq]
  norm_num
  rw [blockReduceAux_eq]
  norm_num
  rw [blockReduceAux_eq]
  norm_num
  simp only [treeStep]
  norm_num
  simp only [Finset.sum_range_succ, Finset.sum_range_zero]
  ring

/-- Warps beyond the 8 that a 256-thread block holds have no threads. -/
theorem warpTotal_zero_of_big (g : ℕ) (A : csrFormat) (N b : ℕ) {w : ℕ} (hw : numberOfWarps ≤ w) :
    warpTotal g 256 A N b w = 0 := by
  unfold warpTotal
  rw [show laneCount 256 w = 0 from by
    simp only [laneCount, warpSize, numberOfWarps] at *
    omega]
  rw [Finset.range_zero, Finset.sum_empty]

theorem laneCount_256 {w : ℕ} (hw : w < numberOfWarps) : laneCount 256 w = warpSize := by
  simp only [laneCount, warpSize, numberOfWarps] at *
  omega

/-- At `blockDim = 256` the block contributes the total of its 8
per-warp partial sums: the zeroed cells `8..31` absorb the tree rounds
that reach past the 8 warp slots, and the garbage cells are never
read. -/
theorem blockContribution_256 (g : ℕ) (g0 : ℕ → ℕ → ℕ) (A : csrFormat) (N b : ℕ) :
    blockContribution g 256 g0 A N b =
      ∑ w ∈ Finset.range numberOfWarps, warpTotal g 256 A N b w := by
  unfold blockContribution
  rw [if_pos (by norm_num : (0:ℕ) < 256)]
  unfold blockReduceSum
  rw [show min 256 warpSize / 2 = 16 from rfl, tree32]
  have hcell : ∀ l ∈ Finset.range 32,
      sharedAfter g 256 (g0 b) A N b l = warpTotal g 256 A N b l := by
    intro l hl
    rw [Finset.mem_range] at hl
    unfold sharedAfter
    rw [if_pos (by simp only [warpSize]; omega), Nat.zero_add]
  rw [Finset.sum_congr rfl hcell]
  refine (Finset.sum_subset (Finset.range_subset.mpr (by norm_num [numberOfWarps])) ?_).symm
  intro x _ hx
  rw [Finset.mem_range] at hx
  exact warpTotal_zero_of_big g A N b (by omega)

/-! ### Assembly: the whole launch at `blockDim = 256` -/

theorem sum_blocks_warps (F : ℕ → ℕ) (g W : ℕ) :
    (∑ b ∈ Finset.range g, ∑ w ∈ Finset.range W, F (w + b * W)) =
      ∑ gw ∈ Finset.range (W * g), F gw := by
  induction g with
  | zero => simp
  | succ g ih =>
    rw [Finset.sum_range_succ, ih, show W * (g + 1) = W * g + W from by ring,
      Finset.range_eq_Ico,
      ← Finset.sum_Ico_consecutive F (Nat.zero_le (W * g)) (by omega : W * g ≤ W * g + W),
      ← Finset.range_eq_Ico]
    congr 1
    rw [Finset.sum_Ico_eq_sum_range, show W * g + W - W * g = W from by omega]
    exact Finset.sum_congr rfl (fun i _ => by rw [show W * g + i = i + g * W from by ring])

/-- With 8 warps of 32 lanes per block (`blockDim = 256`), the launch
performs exactly one full-warp pass over every row, independently of
the grid size: final accumulator = initial value + `totalWork`. -/
theorem kernel256_eq_totalWork (g : ℕ) (hg : 0 < g) (g0 : ℕ → ℕ → ℕ)
    (A : csrFormat) (N nT0 : ℕ) :
    cuFindTriangles g 256 g0 A N nT0 = nT0 + totalWork A N := by
  unfold cuFindTriangles
  refine congrArg (fun t => nT0 + t) ?_
  have hstride : 0 < numberOfWarps * g := by
    simp only [numberOfWarps]
    omega
  calc (∑ b ∈ Finset.range g, blockContribution g 256 g0 A N b)
      = ∑ b ∈ Finset.range g, ∑ w ∈ Finset.range numberOfWarps,
          warpTotal g 256 A N b w :=
        Finset.sum_congr rfl (fun b _ => blockContribution_256 g g0 A N b)
    _ = ∑ b ∈ Finset.range g, ∑ w ∈ Finset.range numberOfWarps,
          ∑ lane ∈ Finset.range warpSize,
            threadRowLoop A N (numberOfWarps * g) lane (w + b * numberOfWarps) := by
        refine Finset.sum_congr rfl (fun b _ => Finset.sum_congr rfl (fun w hw => ?_))
        rw [Finset.mem_range] at hw
        unfold warpTotal
        rw [laneCount_256 hw]
    _ = ∑ gw ∈ Finset.range (numberOfWarps * g),
          ∑ lane ∈ Finset.range warpSize,
            threadRowLoop A N (numberOfWarps * g) lane gw :=
        sum_blocks_warps
          (fun gw => ∑ lane ∈ Finset.range warpSize,
            threadRowLoop A N (numberOfWarps * g) lane gw) g numberOfWarps
    _ = ∑ gw ∈ Finset.range (numberOfWarps * g),
          ∑ x ∈ (Finset.range N).filter
            (fun x => gw ≤ x ∧ (x - gw) % (numberOfWarps * g) = 0), rowTotal A x :=
        Finset.sum_congr rfl (fun gw _ =>
          warpRows A N (numberOfWarps * g) hstride (N - gw) gw le_rfl)
    _ = ∑ x ∈ Finset.range N, rowTotal A x :=
        gridStride_partition (rowTotal A) N (numberOfWarps * g) hstride
    _ = totalWork A N := rfl

/-! ### Counting: intersection totals are three times the triangles -/

theorem nbr_subset_range (A : csrFormat) (N r : ℕ) (hr : r < N) (HR : csrInRange A N) :
    nbrFinset A r ⊆ Finset.range N := by
  intro c hc
  obtain ⟨j, hj, rfl⟩ := Finset.mem_image.mp hc
  rw [Finset.mem_Ico] at hj
  rw [Finset.mem_range]
  exact HR r hr j hj.2 hj.1

theorem inter_card_eq_sum (A : csrFormat) (N row col : ℕ) (hrow : row < N)
    (HR : csrInRange A N) :
    ((nbrFinset A row) ∩ (nbrFinset A col)).card =
      ∑ w ∈ Finset.range N, (if adj A row w ∧ adj A col w then 1 else 0) := by
  have hset : (nbrFinset A row) ∩ (nbrFinset A col) =
      (Finset.range N).filter (fun w => adj A row w ∧ adj A col w) := by
    ext w
    simp only [Finset.mem_inter, Finset.mem_filter]
    constructor
    · rintro ⟨h1, h2⟩
      exact ⟨nbr_subset_range A N row hrow HR h1, h1, h2⟩
    · rintro ⟨_, h1, h2⟩
      exact ⟨h1, h2⟩
  rw [hset, Finset.card_filter]

theorem ite_sum_zero {P : Prop} [Decidable P] (s : Finset ℕ) (f : ℕ → ℕ) :
    (if P then (∑ w ∈ s, f w) else 0) = ∑ w ∈ s, (if P then f w else 0) := by
  by_cases h : P
  · simp [h]
  · simp [h]

theorem ite_ite_and {P Q : Prop} [Decidable P] [Decidable Q] :
    (if P then (if Q then (1:ℕ) else 0) else 0) = if P ∧ Q then 1 else 0 := by
  by_cases hP : P
  · by_cases hQ : Q
    · simp [hP, hQ]
    · simp [hP, hQ]
  · simp [hP]

/-- One strictly sorted row's total, expressed over vertices: for every
neighbour `c > row` of `row`, each common neighbour `w` contributes
one unit. -/
theorem rowTotal_eq_triple_row (A : csrFormat) (N row : ℕ) (hrow : row < N)
    (Hst : ∀ r < N, rowSortedStrict A r) (HR : csrInRange A N) :
    rowTotal A row = ∑ c ∈ Finset.range N, ∑ w ∈ Finset.range N,
      (if (row < c ∧ adj A row c) ∧ (adj A row w ∧ adj A c w) then 1 else 0) := by
  have hstrow := Hst row hrow
  have hinj : ∀ x ∈ Finset.Ico (rp A row) (rp A (row+1)),
      ∀ y ∈ Finset.Ico (rp A row) (rp A (row+1)), civ A x = civ A y → x = y :=
    fun x hx y hy => civ_injOn A row hstrow (Finset.mem_coe.mpr hx) (Finset.mem_coe.mpr hy)
  have hfilter : (nbrFinset A row).filter (fun c => row < c) =
      (Finset.range N).filter (fun c => row < c ∧ adj A row c) := by
    ext c
    simp only [Finset.mem_filter]
    constructor
    · rintro ⟨h1, h2⟩
      exact ⟨nbr_subset_range A N row hrow HR h1, h2, h1⟩
    · rintro ⟨_, h1, h2⟩
      exact ⟨h2, h1⟩
  calc rowTotal A row
      = ∑ j ∈ Finset.Ico (rp A row) (rp A (row+1)), rowContrib A row j := rowTotal_eq_Ico A row
    _ = ∑ c ∈ (Finset.Ico (rp A row) (rp A (row+1))).image (civ A),
          (if row < c then edgeCount A row c else 0) := by
        rw [Finset.sum_image hinj]
        exact Finset.sum_congr rfl (fun j _ => rfl)
    _ = ∑ c ∈ nbrFinset A row, (if row < c then edgeCount A row c else 0) := rfl
    _ = ∑ c ∈ (nbrFinset A row).filter (fun c => row < c), edgeCount A row c :=
        (Finset.sum_filter _ _).symm
    _ = ∑ c ∈ (Finset.range N).filter (fun c => row < c ∧ adj A row c),
          edgeCount A row c := by rw [hfilter]
    _ = ∑ c ∈ (Finset.range N).filter (fun c => row < c ∧ adj A row c),
          ∑ w ∈ Finset.range N, (if adj A row w ∧ adj A c w then 1 else 0) := by
        refine Finset.sum_congr rfl (fun c hc => ?_)
        rw [Finset.mem_filter, Finset.mem_range] at hc
        rw [edgeCount_eq_pairCount A row c
            (fun q hq p hpq hp => le_of_lt (hstrow q hq p hpq hp))
            (Hst c hc.1),
          pairCount_eq_inter A row c hstrow (Hst c hc.1),
          inter_card_eq_sum A N row c hrow HR]
    _ = ∑ c ∈ Finset.range N, (if row < c ∧ adj A row c then
          ∑ w ∈ Finset.range N, (if adj A row w ∧ adj A c w then 1 else 0) else 0) :=
        Finset.sum_filter _ _
    _ = ∑ c ∈ Finset.range N, ∑ w ∈ Finset.range N,
          (if (row < c ∧ adj A row c) ∧ (adj A row w ∧ adj A c w) then 1 else 0) := by
        refine Finset.sum_congr rfl (fun c _ => ?_)
        rw [ite_sum_zero]
        exact Finset.sum_congr rfl (fun w _ => ite_ite_and)

/-- The launch total counts the processed-edge/common-neighbour
triples. -/
theorem totalWork_eq_tripleSet (A : csrFormat) (N : ℕ)
    (Hst : ∀ r < N, rowSortedStrict A r) (HR : csrInRange A N) :
    totalWork A N = (tripleSet A N).card := by
  unfold totalWork tripleSet
  rw [Finset.card_filter, Finset.sum_product]
  refine Finset.sum_congr rfl (fun row hrow => ?_)
  rw [Finset.sum_product, rowTotal_eq_triple_row A N row (Finset.mem_range.mp hrow) Hst HR]
  exact Finset.sum_congr rfl (fun c _ => Finset.sum_congr rfl (fun w _ =>
    if_congr (by tauto) rfl rfl))

theorem mem_tripleSet {A : csrFormat} {N : ℕ} {t : ℕ × ℕ × ℕ} :
    t ∈ tripleSet A N ↔
      (t.1 < N ∧ t.2.1 < N ∧ t.2.2 < N) ∧ t.1 < t.2.1 ∧
        adj A t.1 t.2.1 ∧ adj A t.1 t.2.2 ∧ adj A t.2.1 t.2.2 := by
  unfold tripleSet
  simp only [Finset.mem_filter, Finset.mem_product, Finset.mem_range]

theorem mem_triangles {A : csrFormat} {N : ℕ} {t : ℕ × ℕ × ℕ} :
    t ∈ triangles A N ↔
      (t.1 < N ∧ t.2.1 < N ∧ t.2.2 < N) ∧ t.1 < t.2.1 ∧ t.2.1 < t.2.2 ∧
        adj A t.1 t.2.1 ∧ adj A t.1 t.2.2 ∧ adj A t.2.1 t.2.2 := by
  unfold triangles
  simp only [Finset.mem_filter, Finset.mem_product, Finset.mem_range]

/-- In a loop-free graph the common neighbour differs from both edge
endpoints, so the three position classes cover `tripleSet`. -/
theorem tripleSet_eq_union (A : csrFormat) (N : ℕ) (Hnd : csrNoDiag A N) :
    tripleSet A N = (tripleLow A N ∪ tripleMid A N) ∪ tripleHigh A N := by
  ext t
  simp only [Finset.mem_union, tripleLow, tripleMid, tripleHigh, Finset.mem_filter]
  constructor
  · intro h
    obtain ⟨⟨hr, hc, hw⟩, hrc, harc, harw, hacw⟩ := mem_tripleSet.mp h
    have hwr : t.2.2 ≠ t.1 := fun he => Hnd t.1 hr (he ▸ harw)
    have hwc : t.2.2 ≠ t.2.1 := fun he => Hnd t.2.1 hc (he ▸ hacw)
    rcases Nat.lt_trichotomy t.2.2 t.1 with h1 | h1 | h1
    · exact Or.inl (Or.inl ⟨h, h1⟩)
    · exact absurd h1 hwr
    · rcases Nat.lt_trichotomy t.2.2 t.2.1 with h2 | h2 | h2
      · exact Or.inl (Or.inr ⟨h, h1, h2⟩)
      · exact absurd h2 hwc
      · exact Or.inr ⟨h, h2⟩
  · rintro ((⟨h, _⟩ | ⟨h, _⟩) | ⟨h, _⟩) <;> exact h

theorem tripleHigh_card (A : csrFormat) (N : ℕ) :
    (tripleHigh A N).card = triangleCount A N := by
  have hset : tripleHigh A N = triangles A N := by
    ext t
    simp only [tripleHigh, Finset.mem_filter, mem_tripleSet, mem_triangles]
    tauto
  rw [hset]
  rfl

theorem tripleMid_card (A : csrFormat) (N : ℕ) (Hsym : csrSymmetric A N) :
    (tripleMid A N).card = triangleCount A N := by
  refine Finset.card_nbij' (fun t => (t.1, t.2.2, t.2.1)) (fun t => (t.1, t.2.2, t.2.1))
    ?_ ?_ (fun t _ => rfl) (fun t _ => rfl)
  · intro t ht
    simp only [tripleMid, Finset.mem_filter] at ht
    obtain ⟨hts, h1, h2⟩ := ht
    obtain ⟨⟨hr, hc, hw⟩, hrc, harc, harw, hacw⟩ := mem_tripleSet.mp hts
    exact mem_triangles.mpr ⟨⟨hr, hw, hc⟩, h1, h2, harw, harc, Hsym t.2.1 hc t.2.2 hw hacw⟩
  · intro t ht
    obtain ⟨⟨hr, hc, hw⟩, hrc, hcw, harc, harw, hacw⟩ := mem_triangles.mp ht
    simp only [tripleMid, Finset.mem_filter]
    exact ⟨mem_tripleSet.mpr ⟨⟨hr, hw, hc⟩, lt_trans hrc hcw, harw, harc,
      Hsym t.2.1 hc t.2.2 hw hacw⟩, hrc, hcw⟩

theorem tripleLow_card (A : csrFormat) (N : ℕ) (Hsym : csrSymmetric A N) :
    (tripleLow A N).card = triangleCount A N := by
  refine Finset.card_nbij' (fun t => (t.2.2, t.1, t.2.1)) (fun t => (t.2.1, t.2.2, t.1))
    ?_ ?_ (fun t _ => rfl) (fun t _ => rfl)
  · intro t ht
    simp only [tripleLow, Finset.mem_filter] at ht
    obtain ⟨hts, h1⟩ := ht
    obtain ⟨⟨hr, hc, hw⟩, hrc, harc, harw, hacw⟩ := mem_tripleSet.mp hts
    exact mem_triangles.mpr ⟨⟨hw, hr, hc⟩, h1, hrc,
      Hsym t.1 hr t.2.2 hw harw, Hsym t.2.1 hc t.2.2 hw hacw, harc⟩
  · intro t ht
    obtain ⟨⟨hr, hc, hw⟩, hrc, hcw, harc, harw, hacw⟩ := mem_triangles.mp ht
    simp only [tripleLow, Finset.mem_filter]
    exact ⟨mem_tripleSet.mpr ⟨⟨hc, hw, hr⟩, hcw, hacw,
      Hsym t.1 hr t.2.1 hc harc, Hsym t.1 hr t.2.2 hw harw⟩, hrc⟩

theorem tripleSet_card_eq (A : csrFormat) (N : ℕ)
    (Hsym : csrSymmetric A N) (Hnd : csrNoDiag A N) :
    (tripleSet A N).card = 3 * triangleCount A N := by
  have hd1 : Disjoint (tripleLow A N) (tripleMid A N) := by
    rw [Finset.disjoint_left]
    intro t h1 h2
    simp only [tripleLow, tripleMid, Finset.mem_filter] at h1 h2
    omega
  have hd2 : Disjoint (tripleLow A N ∪ tripleMid A N) (tripleHigh A N) := by
    rw [Finset.disjoint_left]
    intro t h1 h2
    simp only [tripleLow, tripleMid, tripleHigh, Finset.mem_union, Finset.mem_filter] at h1 h2
    obtain ⟨hts, hcw⟩ := h2
    obtain ⟨⟨hr, hc, hw⟩, hrc, _⟩ := mem_tripleSet.mp hts
    rcases h1 with ⟨_, h⟩ | ⟨_, h⟩ <;> omega
  rw [tripleSet_eq_union A N Hnd, Finset.card_union_of_disjoint hd2,
    Finset.card_union_of_disjoint hd1, tripleLow_card A N Hsym,
    tripleMid_card A N Hsym, tripleHigh_card A N]
  ring

/-- Under the wellformedness hypotheses, the launch total is exactly
three times the number of triangles. -/
theorem totalWork_eq_three_mul (A : csrFormat) (N : ℕ)
    (Hst : ∀ r < N, rowSortedStrict A r) (HR : csrInRange A N)
    (Hsym : csrSymmetric A N) (Hnd : csrNoDiag A N) :
    totalWork A N = 3 * triangleCount A N := by
  rw [totalWork_eq_tripleSet A N Hst HR, tripleSet_card_eq A N Hsym Hnd]

/-! ### Warp-aggregated atomics -/

theorem groupRank_zero_iff (g : Finset ℕ) (hne : g.Nonempty) :
    ∀ t ∈ g, (groupRank g t = 0 ↔ t = g.min' hne) := by
  intro t ht
  unfold groupRank
  rw [Finset.card_eq_zero, Finset.filter_eq_empty_iff]
  constructor
  · intro h
    refine le_antisymm ?_ (Finset.min'_le g t ht)
    exact Finset.le_min' g hne t (fun y hy => not_lt.mp (h hy))
  · intro h u hu
    rw [h]
    exact not_lt.mpr (Finset.min'_le g u hu)

theorem groupAdded_eq_card (g : Finset ℕ) (hne : g.Nonempty) :
    groupAdded g = g.card := by
  unfold groupAdded warpReduceThreadAdd
  rw [Finset.sum_congr rfl (fun t ht =>
    if_congr (groupRank_zero_iff g hne t ht) rfl rfl)]
  rw [Finset.sum_ite_eq' g (g.min' hne) (fun _ => g.card),
    if_pos (Finset.min'_mem g hne)]

theorem groupAtomics_eq_one (g : Finset ℕ) (hne : g.Nonempty) :
    groupAtomics g = 1 := by
  unfold groupAtomics
  rw [Finset.filter_congr (fun t ht => by
      rw [groupRank_zero_iff g hne t ht]),
    Finset.filter_eq' g (g.min' hne), if_pos (Finset.min'_mem g hne),
    Finset.card_singleton]

/-! ### The halving tree on zeroed cells -/

/-- The tree rounds only ever read cells below `2 i` (plus cell `0`);
if those are all zero the block contributes zero. -/
theorem blockReduceAux_zero :
    ∀ i, ∀ s : ℕ → ℕ, s 0 = 0 → (∀ l, l < 2 * i → s l = 0) →
      blockReduceAux s i 0 = 0 := by
  intro i
  induction i using Nat.strong_induction_on with
  | _ i ih =>
    intro s h0 hz
    rw [blockReduceAux_eq]
    by_cases hi : 0 < i
    · rw [if_pos hi]
      refine ih (i / 2) (by omega) (treeStep s i) ?_ ?_
      · show (if 0 < i then s 0 + s (0 + i) else s 0) = 0
        rw [if_pos hi, Nat.zero_add, h0, hz i (by omega)]
      · intro l hl
        have hli : l < i := by omega
        show (if l < i then s l + s (l + i) else s l) = 0
        rw [if_pos hli, hz l (by omega), hz (l + i) (by omega)]
    · rw [if_neg hi]
      exact h0

/-! ### The empty CSR input -/

theorem getD_replicate_zero : ∀ n i : ℕ, (List.replicate n (0:ℕ)).getD i 0 = 0 := by
  intro n
  induction n with
  | zero => intro i; rfl
  | succ n ih =>
    intro i
    cases i with
    | zero => rfl
    | succ i => exact ih i

theorem kernel_empty_eq_zero (N g bd x : ℕ) (g0 : ℕ → ℕ → ℕ) (A : csrFormat)
    (hrp : A.csrRowPtr = List.replicate (N+1) 0) (hci : A.csrColInd = []) :
    cuFindTriangles g bd g0 A N (cuZeroVariable x) = 0 := by
  have hrp0 : ∀ i, rp A i = 0 := by
    intro i
    unfold rp
    rw [hrp]
    exact getD_replicate_zero (N+1) i
  have hlane : ∀ row j, laneJLoop A row j = 0 := by
    intro row j
    rw [laneJLoop_eq, hrp0 (row+1), if_neg (by omega : ¬ j < 0)]
  have hthread : ∀ stride lane fuel row, threadGo A N stride lane row fuel = 0 := by
    intro stride lane fuel
    induction fuel with
    | zero => intro row; rfl
    | succ fuel ih =>
      intro row
      simp only [threadGo]
      by_cases hr : row < N
      · rw [if_pos hr, hlane, ih, Nat.add_zero]
      · rw [if_neg hr]
  have hwarp : ∀ b c, warpTotal g bd A N b c = 0 := by
    intro b c
    unfold warpTotal threadRowLoop
    exact Finset.sum_eq_zero (fun lane _ => hthread _ lane _ _)
  have hblock : ∀ b, blockContribution g bd g0 A N b = 0 := by
    intro b
    unfold blockContribution
    by_cases hbd : 0 < bd
    · rw [if_pos hbd]
      unfold blockReduceSum
      refine blockReduceAux_zero (min bd warpSize / 2)
        (sharedAfter g bd (g0 b) A N b) ?_ ?_
      · unfold sharedAfter
        rw [hwarp b 0, Nat.add_zero,
          if_pos (by have hw : warpSize = 32 := rfl; omega : 0 < min bd warpSize)]
      · intro l hl
        unfold sharedAfter
        rw [hwarp b l, Nat.add_zero, if_pos (by omega : l < min bd warpSize)]
    · rw [if_neg hbd]
  show cuFindTriangles g bd g0 A N 0 = 0
  unfold cuFindTriangles
  rw [Finset.sum_eq_zero (fun b _ => hblock b)]
  rfl

/-! ### Claims -/

/-- C1 (counterexample): on the symmetric, sorted, in-range 3-node
triangle input, `cuZeroVariable` followed by `cuFindTriangles` leaves 3
in the accumulator while the graph has exactly 1 triangle, so the
accumulator does not hold the triangle count. -/
theorem claim1_counterexample :
    cuFindTriangles 1 256 (fun _ _ => 0) Atri 3 (cuZeroVariable 0) = 3 ∧
      triangleCount Atri 3 = 1 ∧
      cuFindTriangles 1 256 (fun _ _ => 0) Atri 3 (cuZeroVariable 0) ≠ triangleCount Atri 3 := by
  decide

/-- C1 (amended): for every CSR input that is symmetric, has per-row
column indices sorted strictly ascending and in range `[0, N)`, and has
no diagonal entries, running `cuZeroVariable` followed by
`cuFindTriangles` (any grid size ≥ 1, 256-thread blocks) leaves in the
accumulator exactly three times the number of triangles. -/
theorem claim1_amended (A : csrFormat) (N g x : ℕ) (g0 : ℕ → ℕ → ℕ)
    (hg : 1 ≤ g) (Hst : ∀ r < N, rowSortedStrict A r) (HR : csrInRange A N)
    (Hsym : csrSymmetric A N) (Hnd : csrNoDiag A N) :
    cuFindTriangles g 256 g0 A N (cuZeroVariable x) = 3 * triangleCount A N := by
  show cuFindTriangles g 256 g0 A N 0 = _
  rw [kernel256_eq_totalWork g hg g0 A N 0, Nat.zero_add,
    totalWork_eq_three_mul A N Hst HR Hsym Hnd]

theorem claim1_witness :
    (1 ≤ 1 ∧ (∀ r < 3, rowSortedStrict Atri r) ∧ csrInRange Atri 3 ∧
        csrSymmetric Atri 3 ∧ csrNoDiag Atri 3) ∧
      cuFindTriangles 1 256 (fun _ _ => 0) Atri 3 (cuZeroVariable 0) =
        3 * triangleCount Atri 3 :=
  ⟨by decide, claim1_amended Atri 3 1 0 (fun _ _ => 0) (by decide) (by decide)
    (by decide) (by decide) (by decide)⟩

/-- C2 (counterexample): the 3-node fully connected graph stored
symmetrically with `nnz = 6` yields a final accumulator value of 3,
not 1. -/
theorem claim2_counterexample :
    cuFindTriangles 1 256 (fun _ _ => 0) Atri 3 (cuZeroVariable 0) = 3 ∧ (3:ℕ) ≠ 1 := by
  decide

/-- C2 (amended): on that input, `cuZeroVariable` followed by
`cuFindTriangles` (any grid size ≥ 1, 256-thread blocks, any shared
garbage, any prior accumulator value) yields exactly 3. -/
theorem claim2_amended (g x : ℕ) (g0 : ℕ → ℕ → ℕ) (hg : 1 ≤ g) :
    cuFindTriangles g 256 g0 Atri 3 (cuZeroVariable x) = 3 := by
  show cuFindTriangles g 256 g0 Atri 3 0 = 3
  rw [kernel256_eq_totalWork g hg g0 Atri 3 0, Nat.zero_add]
  decide

theorem claim2_witness :
    1 ≤ 2 ∧ cuFindTriangles 2 256 (fun b c => b + c) Atri 3 (cuZeroVariable 5) = 3 :=
  ⟨by decide, claim2_amended 2 5 (fun b c => b + c) (by decide)⟩

/-- C3: after the barrier, the halving tree run by the first warp's
coalesced group leaves in cell 0 the total of all `numberOfWarps`
per-warp partial sums of the block, and that value is exactly what the
block contributes to the global accumulator (`blockDim = 256`, the
8-warp configuration the shared array is sized for). -/
theorem claim3_block_reduction (g : ℕ) (g0 : ℕ → ℕ → ℕ) (A : csrFormat) (N b : ℕ) :
    blockReduceSum 256 (sharedAfter g 256 (g0 b) A N b) 0 =
        (∑ w ∈ Finset.range numberOfWarps, warpTotal g 256 A N b w) ∧
      blockContribution g 256 g0 A N b =
        blockReduceSum 256 (sharedAfter g 256 (g0 b) A N b) 0 := by
  constructor
  · have h := blockContribution_256 g g0 A N b
    unfold blockContribution at h
    rwa [if_pos (by norm_num : (0:ℕ) < 256)] at h
  · unfold blockContribution
    rw [if_pos (by norm_num : (0:ℕ) < 256)]

/-- C4 (code bug): at `blockDim = 256` (the 8-warp configuration), the
zero-initialization of line 124 writes shared index 8, which is not
below `numberOfWarps = 8`, the declared size of `sum`. -/
theorem claim4_oob_index :
    8 ∈ sumInitIndices 256 ∧ ¬ (8 < numberOfWarps) := by
  decide

/-- C5 (counterexample): two launch configurations with at least one
warp each — one block of 256 threads versus one block of 32 threads —
give different final accumulator values (3 versus 2) on the valid
triangle input: with fewer than 8 warps per block the stride
`numberOfWarps * gridDim` skips rows. -/
theorem claim5_counterexample :
    cuFindTriangles 1 256 (fun _ _ => 0) Atri 3 (cuZeroVariable 0) = 3 ∧
      cuFindTriangles 1 32 (fun _ _ => 0) Atri 3 (cuZeroVariable 0) = 2 := by
  decide

/-- C5 (amended): at the designed block size 256 (8 warps of 32 lanes),
the final accumulator value is independent of the grid size (and of the
shared-memory garbage and prior accumulator value) for every input. -/
theorem claim5_amended (A : csrFormat) (N g1 g2 x1 x2 : ℕ) (g0a g0b : ℕ → ℕ → ℕ)
    (h1 : 1 ≤ g1) (h2 : 1 ≤ g2) :
    cuFindTriangles g1 256 g0a A N (cuZeroVariable x1) =
      cuFindTriangles g2 256 g0b A N (cuZeroVariable x2) := by
  show cuFindTriangles g1 256 g0a A N 0 = cuFindTriangles g2 256 g0b A N 0
  rw [kernel256_eq_totalWork g1 h1 g0a A N 0, kernel256_eq_totalWork g2 h2 g0b A N 0]

theorem claim5_witness :
    (1 ≤ 1 ∧ 1 ≤ 2) ∧
      cuFindTriangles 1 256 (fun _ _ => 0) Atri 3 (cuZeroVariable 0) =
        cuFindTriangles 2 256 (fun b c => b * c + 1) Atri 3 (cuZeroVariable 4) :=
  ⟨by decide, claim5_amended Atri 3 1 2 0 4 (fun _ _ => 0) (fun b c => b * c + 1)
    (by decide) (by decide)⟩

/-- C6: over any lock-step schedule of nonempty coalesced groups, the
aggregate added to the warp's shared slot equals the number of match
events (each group adds `g.size()` once, through its rank-0 thread),
and exactly one atomic is issued per group, not one per thread. -/
theorem claim6_warp_aggregate (sched : List (Finset ℕ))
    (hne : ∀ g ∈ sched, g.Nonempty) :
    scheduleAdded sched = scheduleEvents sched ∧
      scheduleAtomics sched = sched.length := by
  induction sched with
  | nil => exact ⟨rfl, rfl⟩
  | cons g tl ih =>
    have hg : g.Nonempty := hne g (List.mem_cons_self g tl)
    obtain ⟨ih1, ih2⟩ := ih (fun u hu => hne u (List.mem_cons_of_mem g hu))
    constructor
    · show groupAdded g + scheduleAdded tl = g.card + scheduleEvents tl
      rw [groupAdded_eq_card g hg, ih1]
    · show groupAtomics g + scheduleAtomics tl = tl.length + 1
      rw [groupAtomics_eq_one g hg, ih2]
      omega

theorem claim6_witness :
    (∀ g ∈ [({0, 3, 5} : Finset ℕ), {2}], g.Nonempty) ∧
      (scheduleAdded [({0, 3, 5} : Finset ℕ), {2}] =
          scheduleEvents [({0, 3, 5} : Finset ℕ), {2}] ∧
        scheduleAtomics [({0, 3, 5} : Finset ℕ), {2}] =
          ([({0, 3, 5} : Finset ℕ), {2}]).length) :=
  ⟨by decide, claim6_warp_aggregate [({0, 3, 5} : Finset ℕ), {2}] (by decide)⟩

/-- C7: for strictly ascending slices, the memoized two-pointer scan of
a processed edge `(row, col)`, `col > row`, records exactly as many
contributions as the naive rescan-from-`rowPtr[row]` intersection,
namely the size of the intersection of the two neighbour sets. -/
theorem claim7_memoized_refinement (A : csrFormat) (row col : ℕ) (hcr : row < col)
    (Hrow : rowSortedStrict A row) (Hcol : rowSortedStrict A col) :
    edgeCount A row col = naiveEdgeCount A row col ∧
      edgeCount A row col = ((nbrFinset A row) ∩ (nbrFinset A col)).card := by
  have hsorted : rowSorted A row := fun q hq p hpq hp => le_of_lt (Hrow q hq p hpq hp)
  constructor
  · rw [edgeCount_eq_pairCount A row col hsorted Hcol,
      naiveEdgeCount_eq_pairCount A row col hsorted]
  · rw [edgeCount_eq_pairCount A row col hsorted Hcol,
      pairCount_eq_inter A row col Hrow Hcol]

theorem claim7_witness :
    ((0:ℕ) < 1 ∧ rowSortedStrict Atri 0 ∧ rowSortedStrict Atri 1) ∧
      (edgeCount Atri 0 1 = naiveEdgeCount Atri 0 1 ∧
        edgeCount Atri 0 1 = ((nbrFinset Atri 0) ∩ (nbrFinset Atri 1)).card) :=
  ⟨by decide, claim7_memoized_refinement Atri 0 1 (by decide) (by decide) (by decide)⟩

/-- C8: with the zero-initializer between runs, a second run reproduces
the first run's accumulator value; without it, the second run ends at
the sum of both runs' counts. -/
theorem claim8_rezero_idempotent (g bd x : ℕ) (g0 : ℕ → ℕ → ℕ)
    (A : csrFormat) (N : ℕ) :
    (cuFindTriangles g bd g0 A N
        (cuZeroVariable (cuFindTriangles g bd g0 A N (cuZeroVariable x))) =
      cuFindTriangles g bd g0 A N (cuZeroVariable x)) ∧
    (cuFindTriangles g bd g0 A N (cuFindTriangles g bd g0 A N (cuZeroVariable x)) =
      cuFindTriangles g bd g0 A N (cuZeroVariable x) +
        cuFindTriangles g bd g0 A N (cuZeroVariable x)) := by
  constructor
  · rfl
  · show cuFindTriangles g bd g0 A N (cuFindTriangles g bd g0 A N 0) =
      cuFindTriangles g bd g0 A N 0 + cuFindTriangles g bd g0 A N 0
    unfold cuFindTriangles
    omega

/-- C9: an `N`-row CSR input with `nnz = 0` (all row pointers zero,
empty `colInd`) yields accumulator 0 after `cuZeroVariable` and
`cuFindTriangles`, under every launch configuration and any
shared-memory garbage. -/
theorem claim9_empty_graph (N g bd x : ℕ) (g0 : ℕ → ℕ → ℕ) (A : csrFormat)
    (hrp : A.csrRowPtr = List.replicate (N+1) 0) (hci : A.csrColInd = []) :
    cuFindTriangles g bd g0 A N (cuZeroVariable x) = 0 :=
  kernel_empty_eq_zero N g bd x g0 A hrp hci

theorem claim9_witness :
    (Aempty.csrRowPtr = List.replicate (4+1) 0 ∧ Aempty.csrColInd = []) ∧
      cuFindTriangles 2 256 (fun b c => b + 7 * c) Aempty 4 (cuZeroVariable 9) = 0 :=
  ⟨⟨by decide, by decide⟩,
    claim9_empty_graph 4 2 256 9 (fun b c => b + 7 * c) Aempty (by decide) (by decide)⟩

/-- C10 (counterexample): with both slices sorted ascending but a
duplicate in the `col`-side slice, the memoized scan records fewer
contributions than the number of equal-value index pairs: on `Adup`,
edge `(0, 1)` records 1 contribution while there are 2 equal pairs. -/
theorem claim10_counterexample :
    (rowSorted Adup 0 ∧ rowSorted Adup 1) ∧
      edgeCount Adup 0 1 = 1 ∧ pairCount Adup 0 1 = 2 ∧
      edgeCount Adup 0 1 ≠ pairCount Adup 0 1 := by
  decide

/-- C10 (amended): for a processed edge `(row, col)`, `col > row`, with
`row`'s slice sorted ascending (duplicates allowed) and `col`'s slice
strictly ascending, the contributions recorded equal the number of
equal-value index pairs of the two slices; when moreover `row`'s slice
is strictly ascending (per-row distinct indices), they equal the
intersection cardinality — the precondition exact counting needs. -/
theorem claim10_amended (A : csrFormat) (row col : ℕ) (hcr : row < col)
    (Hrow : rowSorted A row) (Hcol : rowSortedStrict A col) :
    edgeCount A row col = pairCount A row col ∧
      (rowSortedStrict A row →
        edgeCount A row col = ((nbrFinset A row) ∩ (nbrFinset A col)).card) := by
  refine ⟨edgeCount_eq_pairCount A row col Hrow Hcol, fun Hs => ?_⟩
  rw [edgeCount_eq_pairCount A row col Hrow Hcol, pairCount_eq_inter A row col Hs Hcol]

theorem claim10_witness :
    ((0:ℕ) < 2 ∧ rowSorted Atri 0 ∧ rowSortedStrict Atri 2) ∧
      (edgeCount Atri 0 2 = pairCount Atri 0 2 ∧
        (rowSortedStrict Atri 0 →
          edgeCount Atri 0 2 = ((nbrFinset Atri 0) ∩ (nbrFinset Atri 2)).card)) :=
  ⟨by decide, claim10_amended Atri 0 2 (by decide) (by decide) (by decide)⟩

end PD4
